import Mathlib

/-! Shallow embedding of `circularbuffer.h`.

`circularbuffer<T, N>` owns an array `T buffer[N]`, a pointer `begin` into that
array and an `unsigned int size_`.  The pointer is kept here as the offset
`begin - buffer`; the array is a function on `Fin N` so that every access has to
show its physical index is below `N`.  An access the C++ leaves undefined (an
index outside the array, a modulus by zero) makes the operation return `none`.

`size_` never exceeds `N` on the paths that increment it (the increment is
guarded by `size_ < N`), so the 32-bit width of `unsigned int` is not visible
and the counters are natural numbers.
-/

namespace CircularBuffer

/-! ## Data model -/

/-- The private members of `circularbuffer<T, N>`: `buffer`, `begin` (as the
offset `begin - buffer`) and `size_`. -/
structure circularbuffer (T : Type) (N : Nat) where
  buffer : Fin N → T
  begin : Nat
  size_ : Nat

variable {T : Type} {N : Nat}

/-- Read of the array element `buffer[p]`; undefined outside the array. -/
def load (cb : circularbuffer T N) (p : Nat) : Option T :=
  if h : p < N then some (cb.buffer ⟨p, h⟩) else none

/-- Assignment `buffer[p] = t`; undefined outside the array. -/
def store (cb : circularbuffer T N) (p : Nat) (t : T) : Option (circularbuffer T N) :=
  if h : p < N then some { cb with buffer := Function.update cb.buffer ⟨p, h⟩ t } else none

/-- Constructor `circularbuffer() : buffer{ 0 }, begin{ buffer }, size_{ 0 }`. -/
def ctor [Zero T] : circularbuffer T N :=
  { buffer := fun _ => 0, begin := 0, size_ := 0 }

/-- One argument of the constructor template
`circularbuffer(Ts const &... args)`: either its type is the element type `T`,
or it has another type, whose values are `S` here. -/
inductive Arg (S T : Type) where
  | element (a : T)
  | convertible (s : S)

/-- The initialiser `std::forward<T>(args)` for one argument.  `args` is an
lvalue of type `const Ts`.  When `Ts` is `T`, neither overload of
`std::forward<T>` accepts it (`T&` would drop the `const`, `T&&` does not bind
an lvalue of type `const T`), so the constructor does not compile.  When
`Ts` is another type, the `T&&` overload binds a temporary holding the
argument converted to `T`, here `conv s`. -/
def forward {S : Type} (conv : S → T) : Arg S T → Option T
  | .element _ => none
  | .convertible s => some (conv s)

/-- The pack expansion `std::forward<T>(args)...`, first argument first. -/
def forward_pack {S : Type} (conv : S → T) : List (Arg S T) → Option (List T)
  | [] => some []
  | a :: as => (forward conv a).bind fun t => (forward_pack conv as).map fun ts => t :: ts

/-- Constructor `circularbuffer(Ts const &... args) :
buffer{ std::forward<T>(args)... }, begin{ buffer }, size_{ sizeof...(Ts) }`.
The array is aggregate-initialised: slot `i` takes the `i`-th initialiser and
the slots after the last one are zero.  More initialisers than slots are
rejected by the compiler, and so is an argument of the element type (see
`forward`); there is no buffer then. -/
def ctor_args [Zero T] {S : Type} (conv : S → T) (args : List (Arg S T)) :
    Option (circularbuffer T N) :=
  if args.length ≤ N then
    (forward_pack conv args).map fun ts =>
      { buffer := fun i => ts.getD i.val 0, begin := 0, size_ := args.length }
  else none

/-- Member `size()`: returns `size_`. -/
def size (cb : circularbuffer T N) : Nat :=
  cb.size_

/-- The physical index that `operator[](index)` dereferences:
`(begin - buffer + index) % size_`.  The modulus is `size_`; with `size_ == 0`
the remainder is undefined. -/
def index_of (cb : circularbuffer T N) (index : Nat) : Option Nat :=
  if cb.size_ = 0 then none else some ((cb.begin + index) % cb.size_)

/-- Member `operator[](index)` used as a value:
`buffer[(begin - buffer + index) % size_]`. -/
def subscript (cb : circularbuffer T N) (index : Nat) : Option T :=
  (index_of cb index).bind (load cb)

/-- Member `front()`: `*begin`. -/
def front (cb : circularbuffer T N) : Option T :=
  load cb cb.begin

/-- Member `back()`: `operator[](size_ - 1)`.  At `size_ == 0` the unsigned
subtraction wraps, but `operator[]` is then already undefined (modulus by
zero), so the wrapped index is never used. -/
def back (cb : circularbuffer T N) : Option T :=
  subscript cb (cb.size_ - 1)

/-- Member `push_back(t)`.  In the branch `size_ < N` the statement is
`operator[](size_++) = t`: the argument is the old `size_`, and the body of
`operator[]` runs after the increment, so its modulus is the new `size_`.
Otherwise `*begin = t` and `begin` advances, wrapping at `buffer + N`. -/
def push_back (cb : circularbuffer T N) (t : T) : Option (circularbuffer T N) :=
  if cb.size_ < N then
    let index := cb.size_
    let cb1 : circularbuffer T N := { cb with size_ := cb.size_ + 1 }
    (index_of cb1 index).bind fun p => store cb1 p t
  else
    (store cb cb.begin t).map fun cb1 =>
      let b := cb1.begin + 1
      { cb1 with begin := if b = N then 0 else b }

/-- Member `push_front(t)`: `if (--begin < buffer) begin = buffer + N - 1;`
then `*begin = t;` then `if (size_ < N) ++size_;`.  The decrement is taken in
the integers, as the pointer may step below `buffer`. -/
def push_front (cb : circularbuffer T N) (t : T) : Option (circularbuffer T N) :=
  let b : Int := (cb.begin : Int) - 1
  let b1 : Nat := if b < 0 then N - 1 else b.toNat
  (store { cb with begin := b1 } b1 t).map fun cb1 =>
    if cb1.size_ < N then { cb1 with size_ := cb1.size_ + 1 } else cb1

/-- Member `pop_back()`: `if (size_ > 0) --size_;`. -/
def pop_back (cb : circularbuffer T N) : circularbuffer T N :=
  if cb.size_ > 0 then { cb with size_ := cb.size_ - 1 } else cb

/-- Member `pop_front()`: `if (size_ > 0) { --size_; if (++begin == buffer + N)
begin = buffer; }`. -/
def pop_front (cb : circularbuffer T N) : circularbuffer T N :=
  if cb.size_ > 0 then
    let b := cb.begin + 1
    { cb with size_ := cb.size_ - 1, begin := if b = N then 0 else b }
  else cb

/-! ## Call sequences -/

/-- One call of a mutating member. -/
inductive Call (T : Type) where
  | push_back (t : T)
  | push_front (t : T)
  | pop_back
  | pop_front

/-- Effect of one call on the buffer. -/
def step (cb : circularbuffer T N) : Call T → Option (circularbuffer T N)
  | .push_back t => push_back cb t
  | .push_front t => push_front cb t
  | .pop_back => some (pop_back cb)
  | .pop_front => some (pop_front cb)

/-- Effect of a sequence of calls, first call first. -/
def run (cb : circularbuffer T N) : List (Call T) → Option (circularbuffer T N)
  | [] => some cb
  | c :: cs => (step cb c).bind fun cb1 => run cb1 cs

/-- The calls `push_back(v 0), ..., push_back(v (m-1))`. -/
def push_backs (v : Nat → T) (m : Nat) : List (Call T) :=
  (List.range m).map fun j => Call.push_back (v j)

/-- The client loop that `n` times reads `front()` and then calls
`pop_front()`; returns the values read, in order, and the final buffer. -/
def front_then_pop : Nat → circularbuffer T N → Option (List T × circularbuffer T N)
  | 0, cb => some ([], cb)
  | n + 1, cb =>
    (front cb).bind fun x =>
      (front_then_pop n (pop_front cb)).map fun r => (x :: r.1, r.2)

/-- The logical contents as a client reads them:
`operator[](0), ..., operator[](size() - 1)`. -/
def contents (cb : circularbuffer T N) : List (Option T) :=
  (List.range (size cb)).map (subscript cb)

/-- The bounds the data members are meant to stay in:
`0 ≤ size_ ≤ N` and `0 ≤ begin - buffer ≤ N - 1`. -/
def in_bounds (cb : circularbuffer T N) : Prop :=
  cb.size_ ≤ N ∧ cb.begin ≤ N - 1

/-! ## Reference bounded deque

The list model the specification compares the buffer with: `push_back`
appends and drops the head when the length is already `N`, `push_front`
prepends and drops the last element when the length is already `N`,
`pop_back` drops the last element and `pop_front` the head, if any. -/

/-- One call on the reference bounded deque of capacity `N`. -/
def deque_step (N : Nat) (l : List T) : Call T → List T
  | .push_back t => if l.length = N then l.tail ++ [t] else l ++ [t]
  | .push_front t => if l.length = N then t :: l.dropLast else t :: l
  | .pop_back => l.dropLast
  | .pop_front => l.tail

/-- A sequence of calls on the reference bounded deque, from `l`. -/
def deque_run (N : Nat) (l : List T) : List (Call T) → List T
  | [] => l
  | c :: cs => deque_run N (deque_step N l c) cs

/-! ## Basic facts about the array accesses -/

theorem load_of_lt (cb : circularbuffer T N) {p : Nat} (h : p < N) :
    load cb p = some (cb.buffer ⟨p, h⟩) := by
  simp [load, h]

theorem store_of_lt (cb : circularbuffer T N) {p : Nat} (t : T) (h : p < N) :
    store cb p t = some { cb with buffer := Function.update cb.buffer ⟨p, h⟩ t } := by
  simp [store, h]

theorem load_update (cb : circularbuffer T N) {p : Nat} (h : p < N) (t : T) (q : Nat)
    (b s : Nat) :
    load ({ buffer := Function.update cb.buffer ⟨p, h⟩ t, begin := b, size_ := s } :
      circularbuffer T N) q = if q = p then some t else load cb q := by
  unfold load
  by_cases hq : q < N
  · by_cases hqp : q = p
    · subst hqp
      simp [hq]
    · have hne : (⟨q, hq⟩ : Fin N) ≠ ⟨p, h⟩ := by
        intro hc
        exact hqp (Fin.mk.inj hc)
      simp [hq, hqp, Function.update_noteq hne]
  · have hqp : q ≠ p := by omega
    simp [hq, hqp]

theorem mod_wrap (a n : Nat) (h : a < 2 * n) :
    a % n = if a < n then a else a - n := by
  split
  · exact Nat.mod_eq_of_lt (by assumption)
  · rw [Nat.mod_eq_sub_mod (by omega), Nat.mod_eq_of_lt (by omega)]

theorem succ_mod_wrap (m n : Nat) (hn : 0 < n) :
    (m + 1) % n = if m % n + 1 = n then 0 else m % n + 1 := by
  have hlt : m % n < n := Nat.mod_lt _ hn
  have h1 : (m + 1) % n = (m % n + 1) % n := by
    conv_lhs => rw [← Nat.div_add_mod m n, Nat.add_assoc, Nat.mul_add_mod]
  rw [h1, mod_wrap _ _ (by omega)]
  split <;> split <;> omega

theorem mod_ne_of_near (p m n : Nat) (h1 : p < m) (h2 : m < p + n) :
    p % n ≠ m % n := by
  intro hc
  have h3 : (m - p) % n = 0 := Nat.sub_mod_eq_zero_of_mod_eq hc.symm
  rw [Nat.mod_eq_of_lt (by omega)] at h3
  omega

theorem run_append (cb : circularbuffer T N) (cs ds : List (Call T)) :
    run cb (cs ++ ds) = (run cb cs).bind fun cb1 => run cb1 ds := by
  induction cs generalizing cb with
  | nil => simp [run]
  | cons c cs ih =>
    simp only [List.cons_append, run]
    cases step cb c with
    | none => simp
    | some cb1 => simpa using ih cb1

theorem push_backs_succ (v : Nat → T) (m : Nat) :
    push_backs v (m + 1) = push_backs v m ++ [Call.push_back (v m)] := by
  simp [push_backs, List.range_succ]

/-! ## The buffer after a run of `push_back` calls -/

/-- What holds of the buffer once `push_back(v 0), ..., push_back(v (m-1))` have
run on the default-constructed buffer: `size_` is `min m N`, `begin` is still
the first slot until the buffer has wrapped and is `m % N` afterwards, and the
last `N` pushed values sit at their index modulo `N`. -/
def PushedBack (v : Nat → T) (m : Nat) (cb : circularbuffer T N) : Prop :=
  cb.size_ = min m N ∧ cb.begin = (if m < N then 0 else m % N) ∧
    ∀ p, p < m → m ≤ p + N → load cb (p % N) = some (v p)

theorem pushedBack_ctor [Zero T] (v : Nat → T) :
    PushedBack v 0 (ctor : circularbuffer T N) := by
  refine ⟨by simp [ctor], ?_, ?_⟩
  · simp [ctor]
  · intro p hp
    omega

theorem pushedBack_push_back (hN : 0 < N) (v : Nat → T) (m : Nat)
    (cb : circularbuffer T N) (h : PushedBack v m cb) :
    ∃ cb1, push_back cb (v m) = some cb1 ∧ PushedBack v (m + 1) cb1 := by
  obtain ⟨hs, hb, hl⟩ := h
  by_cases hm : m < N
  · -- the buffer is not full: `operator[](size_++) = t`
    have hs0 : cb.size_ = m := by rw [hs]; omega
    have hb0 : cb.begin = 0 := by rw [hb]; simp [hm]
    have hidx : (cb.begin + cb.size_) % (cb.size_ + 1) = m := by
      rw [hb0, hs0, Nat.zero_add]
      exact Nat.mod_eq_of_lt (by omega)
    refine ⟨{ buffer := Function.update cb.buffer ⟨m, hm⟩ (v m), begin := cb.begin,
              size_ := cb.size_ + 1 }, ?_, ?_, ?_, ?_⟩
    · simp only [push_back, index_of]
      rw [if_pos (by omega), if_neg (by omega), Option.some_bind, hidx]
      exact store_of_lt _ _ hm
    · show cb.size_ + 1 = min (m + 1) N
      omega
    · show cb.begin = _
      rw [hb0]
      split
      · rfl
      · have : m + 1 = N := by omega
        rw [this, Nat.mod_self]
    · intro p hp _
      rw [load_update, Nat.mod_eq_of_lt (show p < N by omega)]
      by_cases hpm : p = m
      · simp [hpm]
      · rw [if_neg hpm]
        have := hl p (by omega) (by omega)
        rwa [Nat.mod_eq_of_lt (show p < N by omega)] at this
  · -- the buffer is full: `*begin = t` and `begin` advances
    have hs0 : cb.size_ = N := by rw [hs]; omega
    have hb0 : cb.begin = m % N := by rw [hb]; simp [hm]
    have hlt : m % N < N := Nat.mod_lt _ hN
    refine ⟨{ buffer := Function.update cb.buffer ⟨m % N, hlt⟩ (v m),
              begin := if m % N + 1 = N then 0 else m % N + 1,
              size_ := cb.size_ }, ?_, ?_, ?_, ?_⟩
    · have hlt0 : cb.begin < N := by rw [hb0]; exact hlt
      simp only [push_back]
      rw [if_neg (by omega), store_of_lt _ _ hlt0]
      simp [hb0]
    · show cb.size_ = min (m + 1) N
      omega
    · show (if m % N + 1 = N then 0 else m % N + 1) = _
      rw [succ_mod_wrap m N hN, if_neg (show ¬ m + 1 < N by omega)]
    · intro p hp hpN
      rw [load_update]
      by_cases hpm : p = m
      · simp [hpm]
      · have hne : p % N ≠ m % N := mod_ne_of_near p m N (by omega) (by omega)
        rw [if_neg hne]
        exact hl p (by omega) (by omega)

theorem run_push_backs [Zero T] (hN : 0 < N) (v : Nat → T) (m : Nat) :
    ∃ cb, run (ctor : circularbuffer T N) (push_backs v m) = some cb ∧
      PushedBack v m cb := by
  induction m with
  | zero => exact ⟨ctor, rfl, pushedBack_ctor v⟩
  | succ m ih =>
    obtain ⟨cb, hrun, hinv⟩ := ih
    obtain ⟨cb1, hpush, hinv1⟩ := pushedBack_push_back hN v m cb hinv
    refine ⟨cb1, ?_, hinv1⟩
    rw [push_backs_succ, run_append, hrun]
    simp [run, step, hpush]

/-! ## `push_front` and the front-then-pop loop -/

theorem push_front_eq (cb : circularbuffer T N) (t : T) (hN : 0 < N) (hb : cb.begin < N) :
    ∃ (b1 : Nat) (h1 : b1 < N), b1 = (if cb.begin = 0 then N - 1 else cb.begin - 1) ∧
      push_front cb t = some
        { buffer := Function.update cb.buffer ⟨b1, h1⟩ t
          begin := b1
          size_ := if cb.size_ < N then cb.size_ + 1 else cb.size_ } := by
  have hb1 : (if (cb.begin : Int) - 1 < 0 then N - 1 else ((cb.begin : Int) - 1).toNat)
      = (if cb.begin = 0 then N - 1 else cb.begin - 1) := by
    split <;> split <;> omega
  have h1 : (if cb.begin = 0 then N - 1 else cb.begin - 1) < N := by
    split <;> omega
  refine ⟨_, h1, rfl, ?_⟩
  simp only [push_front]
  rw [hb1, store_of_lt _ _ h1]
  simp only [Option.map_some']
  split <;> rfl

theorem front_then_pop_reads (v : Nat → T) (n : Nat) :
    ∀ (s : Nat) (cb : circularbuffer T N), cb.size_ = n → (0 < n → cb.begin = s) →
      s + n = N → (∀ p, s ≤ p → p < N → load cb p = some (v p)) →
      ∃ cb1, front_then_pop n cb = some ((List.range' s n).map v, cb1) ∧ cb1.size_ = 0 := by
  induction n with
  | zero =>
    intro s cb hsz _ _ _
    exact ⟨cb, rfl, hsz⟩
  | succ n ih =>
    intro s cb hsz hb hsn hl
    have hbs : cb.begin = s := hb (by omega)
    have hfront : front cb = some (v s) := by
      simp only [front]
      rw [hbs]
      exact hl s (by omega) (by omega)
    have hpop : pop_front cb =
        { buffer := cb.buffer
          begin := if s + 1 = N then 0 else s + 1
          size_ := n } := by
      simp only [pop_front]
      rw [if_pos (by omega), hbs, hsz]
      rfl
    obtain ⟨cb1, hrec, hsz1⟩ := ih (s + 1) (pop_front cb) (by rw [hpop])
      (by
        intro hn
        rw [hpop]
        exact if_neg (by omega))
      (by omega)
      (by
        intro p hp hpN
        rw [hpop]
        exact hl p (by omega) hpN)
    refine ⟨cb1, ?_, hsz1⟩
    simp only [front_then_pop]
    rw [hfront, Option.some_bind, hrec]
    simp [List.range'_succ]

/-! ## The two branches of `push_back` -/

theorem push_back_slot_lt (cb : circularbuffer T N) (h : cb.size_ < N) :
    (cb.begin + cb.size_) % (cb.size_ + 1) < N :=
  Nat.lt_of_lt_of_le (Nat.mod_lt _ (Nat.succ_pos _)) h

theorem push_back_of_lt (cb : circularbuffer T N) (t : T) (h : cb.size_ < N) :
    push_back cb t = some
      { buffer := Function.update cb.buffer
          ⟨(cb.begin + cb.size_) % (cb.size_ + 1), push_back_slot_lt cb h⟩ t
        begin := cb.begin
        size_ := cb.size_ + 1 } := by
  simp only [push_back, index_of]
  rw [if_pos h, if_neg (Nat.succ_ne_zero _), Option.some_bind]
  exact store_of_lt _ _ (push_back_slot_lt cb h)

theorem push_back_of_full (cb : circularbuffer T N) (t : T) (h : ¬ cb.size_ < N)
    (hb : cb.begin < N) :
    push_back cb t = some
      { buffer := Function.update cb.buffer ⟨cb.begin, hb⟩ t
        begin := if cb.begin + 1 = N then 0 else cb.begin + 1
        size_ := cb.size_ } := by
  simp only [push_back]
  rw [if_neg h, store_of_lt _ _ hb]
  rfl

theorem in_bounds_push_back (hN : 1 ≤ N) (cb : circularbuffer T N) (t : T)
    (h : in_bounds cb) : ∃ cb1, push_back cb t = some cb1 ∧ in_bounds cb1 := by
  obtain ⟨hs, hb⟩ := h
  by_cases hlt : cb.size_ < N
  · refine ⟨_, push_back_of_lt cb t hlt, ?_, ?_⟩
    · show cb.size_ + 1 ≤ N
      omega
    · exact hb
  · refine ⟨_, push_back_of_full cb t hlt (by omega), ?_, ?_⟩
    · exact hs
    · show (if cb.begin + 1 = N then 0 else cb.begin + 1) ≤ N - 1
      split <;> omega

theorem in_bounds_push_front (hN : 1 ≤ N) (cb : circularbuffer T N) (t : T)
    (h : in_bounds cb) : ∃ cb1, push_front cb t = some cb1 ∧ in_bounds cb1 := by
  obtain ⟨hs, hb⟩ := h
  obtain ⟨b1, h1, _, hpush⟩ := push_front_eq cb t hN (by omega)
  refine ⟨_, hpush, ?_, ?_⟩
  · show (if cb.size_ < N then cb.size_ + 1 else cb.size_) ≤ N
    split <;> omega
  · show b1 ≤ N - 1
    omega

theorem in_bounds_pop_back (cb : circularbuffer T N) (h : in_bounds cb) :
    in_bounds (pop_back cb) := by
  obtain ⟨hs, hb⟩ := h
  unfold pop_back
  split
  · exact ⟨by show cb.size_ - 1 ≤ N; omega, hb⟩
  · exact ⟨hs, hb⟩

theorem in_bounds_pop_front (hN : 1 ≤ N) (cb : circularbuffer T N) (h : in_bounds cb) :
    in_bounds (pop_front cb) := by
  obtain ⟨hs, hb⟩ := h
  unfold pop_front
  split
  · refine ⟨by show cb.size_ - 1 ≤ N; omega, ?_⟩
    show (if cb.begin + 1 = N then 0 else cb.begin + 1) ≤ N - 1
    split <;> omega
  · exact ⟨hs, hb⟩

theorem in_bounds_step (hN : 1 ≤ N) (cb : circularbuffer T N) (c : Call T)
    (h : in_bounds cb) : ∃ cb1, step cb c = some cb1 ∧ in_bounds cb1 := by
  cases c with
  | push_back t => exact in_bounds_push_back hN cb t h
  | push_front t => exact in_bounds_push_front hN cb t h
  | pop_back => exact ⟨_, rfl, in_bounds_pop_back cb h⟩
  | pop_front => exact ⟨_, rfl, in_bounds_pop_front hN cb h⟩

theorem in_bounds_run (hN : 1 ≤ N) (cs : List (Call T)) :
    ∀ cb : circularbuffer T N, in_bounds cb → ∃ cb1, run cb cs = some cb1 ∧ in_bounds cb1 := by
  induction cs with
  | nil =>
    intro cb h
    exact ⟨cb, rfl, h⟩
  | cons c cs ih =>
    intro cb h
    obtain ⟨cb1, hstep, h1⟩ := in_bounds_step hN cb c h
    obtain ⟨cb2, hrun, h2⟩ := ih cb1 h1
    refine ⟨cb2, ?_, h2⟩
    simp only [run]
    rw [hstep, Option.some_bind, hrun]

/-! ## Claims -/

/-- C2: on a default-constructed buffer of capacity `N ≥ 1`, after
`push_back(v 0), ..., push_back(v (k-1))` with `k ≤ N`, every call is defined,
`size()` is `k` and `operator[](i)` returns `v i` for every `i < k`. -/
theorem push_back_keeps_push_order [Zero T] (v : Nat → T) (k : Nat) (hN : 1 ≤ N)
    (hk : k ≤ N) :
    ∃ cb, run (ctor : circularbuffer T N) (push_backs v k) = some cb ∧ size cb = k ∧
      ∀ i, i < k → subscript cb i = some (v i) := by
  obtain ⟨cb, hrun, hs, hb, hl⟩ := run_push_backs (N := N) hN v k
  have hs0 : cb.size_ = k := by rw [hs]; omega
  have hb0 : cb.begin = 0 := by
    rw [hb]
    split
    · rfl
    · have : k = N := by omega
      rw [this, Nat.mod_self]
  refine ⟨cb, hrun, hs0, ?_⟩
  intro i hi
  have hload := hl i hi (by omega)
  rw [Nat.mod_eq_of_lt (show i < N by omega)] at hload
  simp only [subscript, index_of]
  rw [if_neg (by omega), hb0, hs0, Nat.zero_add, Nat.mod_eq_of_lt hi]
  exact hload

/-- Witness for C2: capacity 3, two pushes of the values `10` and `11`. -/
theorem push_back_keeps_push_order_witness :
    (1 ≤ 3 ∧ 2 ≤ 3) ∧
    ∃ cb, run (ctor : circularbuffer Nat 3) (push_backs (fun j => 10 + j) 2) = some cb ∧
      size cb = 2 ∧ ∀ i, i < 2 → subscript cb i = some ((fun j => 10 + j) i) :=
  ⟨by decide, push_back_keeps_push_order (fun j => 10 + j) 2 (by decide) (by decide)⟩

/-- C3: on a default-constructed buffer of capacity `N ≥ 1`, after
`push_back(v 0), ..., push_back(v (m-1))` with `m ≥ N`, every call is defined,
`size()` is `N` and `operator[](i)` returns `v (m - N + i)` for every `i < N`:
the buffer holds the last `N` pushed values in push order. -/
theorem push_back_keeps_last_N [Zero T] (v : Nat → T) (m : Nat) (hN : 1 ≤ N)
    (hm : N ≤ m) :
    ∃ cb, run (ctor : circularbuffer T N) (push_backs v m) = some cb ∧ size cb = N ∧
      ∀ i, i < N → subscript cb i = some (v (m - N + i)) := by
  obtain ⟨cb, hrun, hs, hb, hl⟩ := run_push_backs (N := N) hN v m
  have hs0 : cb.size_ = N := by rw [hs]; omega
  have hb0 : cb.begin = m % N := by rw [hb, if_neg (by omega)]
  refine ⟨cb, hrun, hs0, ?_⟩
  intro i hi
  have hload := hl (m - N + i) (by omega) (by omega)
  have hidx : (m % N + i) % N = (m - N + i) % N := by
    rw [Nat.mod_add_mod, ← Nat.add_mod_right (m - N + i) N]
    congr 1
    omega
  simp only [subscript, index_of]
  rw [if_neg (by omega), hb0, hs0, hidx]
  exact hload

/-- Witness for C3: capacity 2, three pushes; the survivors are the last two. -/
theorem push_back_keeps_last_N_witness :
    (1 ≤ 2 ∧ 2 ≤ 3) ∧
    ∃ cb, run (ctor : circularbuffer Nat 2) (push_backs (fun j => 10 + j) 3) = some cb ∧
      size cb = 2 ∧ ∀ i, i < 2 → subscript cb i = some ((fun j => 10 + j) (3 - 2 + i)) :=
  ⟨by decide, push_back_keeps_last_N (fun j => 10 + j) 3 (by decide) (by decide)⟩

/-- C4: with capacity 4 and integer elements, `push_back(0), ..., push_back(5)`
on a default-constructed buffer leaves `size() == 4` and logical contents
`2, 3, 4, 5`; a following `push_front(7)` leaves `size() == 4` and logical
contents `7, 2, 3, 4`. -/
theorem usage_example_contents :
    (run (ctor : circularbuffer Int 4)
        [.push_back 0, .push_back 1, .push_back 2, .push_back 3, .push_back 4,
         .push_back 5]).map size = some 4 ∧
    (run (ctor : circularbuffer Int 4)
        [.push_back 0, .push_back 1, .push_back 2, .push_back 3, .push_back 4,
         .push_back 5]).map contents = some [some 2, some 3, some 4, some 5] ∧
    (run (ctor : circularbuffer Int 4)
        [.push_back 0, .push_back 1, .push_back 2, .push_back 3, .push_back 4,
         .push_back 5, .push_front 7]).map size = some 4 ∧
    (run (ctor : circularbuffer Int 4)
        [.push_back 0, .push_back 1, .push_back 2, .push_back 3, .push_back 4,
         .push_back 5, .push_front 7]).map contents = some [some 7, some 2, some 3, some 4] := by
  decide

/-- C6: for a full buffer (`size_ == N`, `begin` inside the array, `N ≥ 1`),
`push_front(x)` is defined, keeps `size()` at `N`, makes `operator[](0)` return
`x`, and for `1 ≤ i < N` makes `operator[](i)` return what `operator[](i-1)`
returned before the call; the element that was at logical index `N-1` is the
one no longer reachable. -/
theorem push_front_full_shifts (cb : circularbuffer T N) (x : T) (hN : 1 ≤ N)
    (hfull : cb.size_ = N) (hb : cb.begin < N) :
    ∃ cb1, push_front cb x = some cb1 ∧ size cb1 = N ∧ subscript cb1 0 = some x ∧
      ∀ i, 1 ≤ i → i < N →
        ∃ y, subscript cb (i - 1) = some y ∧ subscript cb1 i = some y := by
  obtain ⟨b1, h1, hb1, hpush⟩ := push_front_eq cb x hN hb
  have hsz : (if cb.size_ < N then cb.size_ + 1 else cb.size_) = N := by
    rw [if_neg (by omega), hfull]
  rw [hsz] at hpush
  refine ⟨_, hpush, rfl, ?_, ?_⟩
  · simp only [subscript, index_of]
    rw [if_neg (by omega), Nat.add_zero, Nat.mod_eq_of_lt h1,
      Option.some_bind, load_update, if_pos rfl]
  · intro i hi1 hiN
    have hq : (b1 + i) % N = (cb.begin + (i - 1)) % N := by
      by_cases h0 : cb.begin = 0
      · rw [hb1, if_pos h0, h0, ← Nat.add_mod_right (0 + (i - 1)) N]
        congr 1
        omega
      · rw [hb1, if_neg h0]
        congr 1
        omega
    have hne : (b1 + i) % N ≠ b1 := by
      rw [mod_wrap _ _ (by omega)]
      split <;> omega
    have hlt : (cb.begin + (i - 1)) % N < N := Nat.mod_lt _ hN
    refine ⟨cb.buffer ⟨(cb.begin + (i - 1)) % N, hlt⟩, ?_, ?_⟩
    · simp only [subscript, index_of]
      rw [if_neg (by omega), hfull, Option.some_bind]
      exact load_of_lt cb hlt
    · simp only [subscript, index_of]
      rw [if_neg (by omega), Option.some_bind, load_update, if_neg hne, hq]
      exact load_of_lt cb hlt

/-- Witness for C6: a full buffer of capacity 3 holding `4, 5, 6` with `begin`
at slot 1. -/
theorem push_front_full_shifts_witness :
    (1 ≤ 3 ∧ (⟨![4, 5, 6], 1, 3⟩ : circularbuffer Nat 3).size_ = 3 ∧
      (⟨![4, 5, 6], 1, 3⟩ : circularbuffer Nat 3).begin < 3) ∧
    ∃ cb1, push_front (⟨![4, 5, 6], 1, 3⟩ : circularbuffer Nat 3) 9 = some cb1 ∧
      size cb1 = 3 ∧ subscript cb1 0 = some 9 ∧
      ∀ i, 1 ≤ i → i < 3 →
        ∃ y, subscript (⟨![4, 5, 6], 1, 3⟩ : circularbuffer Nat 3) (i - 1) = some y ∧
          subscript cb1 i = some y :=
  ⟨by decide, push_front_full_shifts ⟨![4, 5, 6], 1, 3⟩ 9 (by decide) rfl (by decide)⟩

/-- C7: on a default-constructed buffer of capacity `N ≥ 1`, after
`push_back(v 0), ..., push_back(v (N-1))`, reading `front()` and then calling
`pop_front()`, `N` times over, reads `v 0, v 1, ..., v (N-1)` in that order and
leaves `size() == 0`. -/
theorem push_back_then_front_pop [Zero T] (v : Nat → T) (hN : 1 ≤ N) :
    ∃ cb cb1, run (ctor : circularbuffer T N) (push_backs v N) = some cb ∧
      front_then_pop N cb = some ((List.range N).map v, cb1) ∧ size cb1 = 0 := by
  obtain ⟨cb, hrun, hs, hb, hl⟩ := run_push_backs (N := N) hN v N
  have hs0 : cb.size_ = N := by rw [hs]; omega
  have hb0 : cb.begin = 0 := by rw [hb, if_neg (by omega), Nat.mod_self]
  obtain ⟨cb1, hloop, hsz⟩ := front_then_pop_reads v N 0 cb hs0 (fun _ => hb0) (by omega)
    (by
      intro p _ hp
      have := hl p hp (by omega)
      rwa [Nat.mod_eq_of_lt hp] at this)
  refine ⟨cb, cb1, hrun, ?_, hsz⟩
  rw [hloop, List.range_eq_range']

/-- Witness for C7: capacity 3 and the values `10, 11, 12`. -/
theorem push_back_then_front_pop_witness :
    1 ≤ 3 ∧
    ∃ cb cb1, run (ctor : circularbuffer Nat 3) (push_backs (fun j => 10 + j) 3) = some cb ∧
      front_then_pop 3 cb = some ((List.range 3).map (fun j => 10 + j), cb1) ∧
      size cb1 = 0 :=
  ⟨by decide, push_back_then_front_pop (fun j => 10 + j) (by decide)⟩

/-! ## Where `operator[]` departs from the wraparound index

`operator[]` reduces `begin - buffer + index` modulo `size_`, not modulo `N`.
The two agree while `begin` is the first slot or the buffer is full; once a
`pop_front` or a `push_front` has moved `begin` in a buffer that is not full
they differ, for reads and for the write in `push_back`.  The theorems below
evaluate the code in such states, all at capacity 2. -/

/-- C1 (code evaluated at a failing input): with capacity 2, after
`push_back(1), push_back(2), pop_front()` the reference deque is `[2]` and
`size()` is 1, yet `operator[](0)` returns `1`, the element just popped,
while `front()` returns `2`. -/
theorem subscript_departs_from_deque :
    deque_run 2 ([] : List Int) [.push_back 1, .push_back 2, .pop_front] = [2] ∧
    (run (ctor : circularbuffer Int 2)
        [.push_back 1, .push_back 2, .pop_front]).map size = some 1 ∧
    ((run (ctor : circularbuffer Int 2)
        [.push_back 1, .push_back 2, .pop_front]).bind fun cb => subscript cb 0) = some 1 ∧
    (run (ctor : circularbuffer Int 2)
        [.push_back 1, .push_back 2, .pop_front]).bind front = some 2 := by
  decide

/-- C5 (code evaluated at failing inputs): with capacity 2, `push_front(7)` on
the default-constructed buffer leaves `operator[](0)` returning the initial `0`
of slot 0, and after `push_back(1), pop_back()` it leaves `operator[](0)`
returning the popped `1`; in both states `front()` returns `7`. -/
theorem push_front_subscript_zero_misses :
    ((run (ctor : circularbuffer Int 2) [.push_front 7]).bind fun cb => subscript cb 0)
      = some 0 ∧
    (run (ctor : circularbuffer Int 2) [.push_front 7]).bind front = some 7 ∧
    ((run (ctor : circularbuffer Int 2)
        [.push_back 1, .pop_back, .push_front 7]).bind fun cb => subscript cb 0) = some 1 ∧
    (run (ctor : circularbuffer Int 2)
        [.push_back 1, .pop_back, .push_front 7]).bind front = some 7 := by
  decide

/-- C8 (code evaluated at failing inputs): with capacity 2, after
`push_back(1), pop_front(), push_back(2)` the reference deque is `[2]` and
`size()` is 1, but `front()` returns the initial `0` of slot 1; after
`push_back(1), push_back(2), pop_back(), pop_front(), push_back(3)` the
reference deque is `[3]` and `front()` returns the popped `2`. -/
theorem front_departs_from_deque :
    deque_run 2 ([] : List Int) [.push_back 1, .pop_front, .push_back 2] = [2] ∧
    (run (ctor : circularbuffer Int 2)
        [.push_back 1, .pop_front, .push_back 2]).map size = some 1 ∧
    (run (ctor : circularbuffer Int 2)
        [.push_back 1, .pop_front, .push_back 2]).bind front = some 0 ∧
    deque_run 2 ([] : List Int)
        [.push_back 1, .push_back 2, .pop_back, .pop_front, .push_back 3] = [3] ∧
    (run (ctor : circularbuffer Int 2)
        [.push_back 1, .push_back 2, .pop_back, .pop_front, .push_back 3]).map size
      = some 1 ∧
    (run (ctor : circularbuffer Int 2)
        [.push_back 1, .push_back 2, .pop_back, .pop_front, .push_back 3]).bind front
      = some 2 := by
  decide

/-- C9 (code evaluated at a failing input): with capacity 2, after
`push_back(1), push_back(2), pop_front()` the reference deque is `[2]` and
`size()` is 1, but `back()` returns `1`. -/
theorem back_departs_from_deque :
    deque_run 2 ([] : List Int) [.push_back 1, .push_back 2, .pop_front] = [2] ∧
    (run (ctor : circularbuffer Int 2)
        [.push_back 1, .push_back 2, .pop_front]).map size = some 1 ∧
    (run (ctor : circularbuffer Int 2)
        [.push_back 1, .push_back 2, .pop_front]).bind back = some 1 := by
  decide

/-- C10 (code evaluated at a failing input): in the state `buffer = {1, 2}`,
`begin` at slot 1, `size_ == 1` of a buffer of capacity 2 (the state after
`push_back(1), push_back(2), pop_front()`), `operator[](0)` dereferences slot
`(1 + 0) % 1 = 0` and returns `1`, while slot `(1 + 0) % 2 = 1` holds `2`. -/
theorem subscript_slot_is_mod_size :
    index_of (⟨![1, 2], 1, 1⟩ : circularbuffer Int 2) 0 = some 0 ∧
    subscript (⟨![1, 2], 1, 1⟩ : circularbuffer Int 2) 0 = some 1 ∧
    load (⟨![1, 2], 1, 1⟩ : circularbuffer Int 2) ((1 + 0) % 2) = some 2 ∧
    ((run (ctor : circularbuffer Int 2)
        [.push_back 1, .push_back 2, .pop_front]).bind fun cb => index_of cb 0) = some 0 ∧
    (run (ctor : circularbuffer Int 2)
        [.push_back 1, .push_back 2, .pop_front]).map (fun cb => (cb.begin, cb.size_))
      = some (1, 1) := by
  decide

/-! ## Pops on an empty buffer, construction from values, bounds and totality -/

/-- C11: in a state with `size_ == 0` (whatever `begin` and the array hold)
`pop_back()` and `pop_front()` each complete and return the state unchanged,
so `size()` is still 0 and `begin` and the array are as before. -/
theorem pop_on_empty_is_noop (cb : circularbuffer T N) (h : cb.size_ = 0) :
    step cb Call.pop_back = some cb ∧ step cb Call.pop_front = some cb ∧
      pop_back cb = cb ∧ pop_front cb = cb ∧ size (pop_back cb) = 0 ∧
      size (pop_front cb) = 0 := by
  have hb : pop_back cb = cb := by
    unfold pop_back
    rw [if_neg (by omega)]
  have hf : pop_front cb = cb := by
    unfold pop_front
    rw [if_neg (by omega)]
  refine ⟨?_, ?_, hb, hf, ?_, ?_⟩
  · show some (pop_back cb) = some cb
    rw [hb]
  · show some (pop_front cb) = some cb
    rw [hf]
  · rw [hb]
    exact h
  · rw [hf]
    exact h

/-- Witness for C11: an empty buffer of capacity 2 with stale values `5, 6`
and `begin` at slot 1. -/
theorem pop_on_empty_is_noop_witness :
    (⟨![5, 6], 1, 0⟩ : circularbuffer Nat 2).size_ = 0 ∧
    (step (⟨![5, 6], 1, 0⟩ : circularbuffer Nat 2) Call.pop_back = some ⟨![5, 6], 1, 0⟩ ∧
      step (⟨![5, 6], 1, 0⟩ : circularbuffer Nat 2) Call.pop_front = some ⟨![5, 6], 1, 0⟩ ∧
      pop_back (⟨![5, 6], 1, 0⟩ : circularbuffer Nat 2) = ⟨![5, 6], 1, 0⟩ ∧
      pop_front (⟨![5, 6], 1, 0⟩ : circularbuffer Nat 2) = ⟨![5, 6], 1, 0⟩ ∧
      size (pop_back (⟨![5, 6], 1, 0⟩ : circularbuffer Nat 2)) = 0 ∧
      size (pop_front (⟨![5, 6], 1, 0⟩ : circularbuffer Nat 2)) = 0) :=
  ⟨rfl, pop_on_empty_is_noop ⟨![5, 6], 1, 0⟩ rfl⟩

theorem forward_pack_convertible {S : Type} (conv : S → T) (ss : List S) :
    forward_pack conv (ss.map Arg.convertible) = some (ss.map conv) := by
  induction ss with
  | nil => rfl
  | cons s ss ih =>
    simp only [List.map_cons, forward_pack, forward, Option.some_bind]
    rw [ih]
    rfl

theorem ctor_args_of_convertible [Zero T] {S : Type} (conv : S → T) (ss : List S)
    (hk : 1 ≤ ss.length) (hkN : ss.length ≤ N) :
    ∃ cb : circularbuffer T N, ctor_args conv (ss.map Arg.convertible) = some cb ∧
      size cb = ss.length ∧ cb.begin = 0 ∧
      ∀ (i : Nat) (h : i < ss.length), subscript cb i = some (conv (ss.get ⟨i, h⟩)) := by
  have hctor : (ctor_args conv (ss.map Arg.convertible) : Option (circularbuffer T N))
      = some { buffer := fun i => (ss.map conv).getD i.val 0, begin := 0,
               size_ := ss.length } := by
    simp only [ctor_args, List.length_map]
    rw [if_pos hkN, forward_pack_convertible]
    rfl
  refine ⟨_, hctor, rfl, rfl, ?_⟩
  intro i h
  simp only [subscript, index_of]
  rw [if_neg (by omega), Nat.zero_add, Nat.mod_eq_of_lt h, Option.some_bind,
    load_of_lt _ (show i < N by omega)]
  simp [List.getElem?_eq_getElem h]

/-- C12 (code evaluated at a failing input): for `circularbuffer<int, 3>` the
call `cb(4, 5)` passes two arguments of the element type, and
`std::forward<int>` on a `const int` lvalue does not compile, so no buffer is
constructed.  The same two values passed as arguments of another type give a
buffer with `size() == 2`, `begin` at slot 0 and `operator[]` returning the
converted `4` and `5`. -/
theorem ctor_args_rejects_element_type :
    (ctor_args (fun s : Nat => (s : Int)) [Arg.element 4, Arg.element 5] :
      Option (circularbuffer Int 3)) = none ∧
    (ctor_args (fun s : Nat => (s : Int)) [Arg.convertible 4, Arg.convertible 5] :
      Option (circularbuffer Int 3)).map size = some 2 ∧
    (ctor_args (fun s : Nat => (s : Int)) [Arg.convertible 4, Arg.convertible 5] :
      Option (circularbuffer Int 3)).map (fun cb => cb.begin) = some 0 ∧
    (ctor_args (fun s : Nat => (s : Int)) [Arg.convertible 4, Arg.convertible 5] :
      Option (circularbuffer Int 3)).map contents = some [some 4, some 5] := by
  refine ⟨rfl, ?_⟩
  decide

/-- C13: for `N ≥ 1` the bounds `0 ≤ size_ ≤ N` and `0 ≤ begin ≤ N - 1` hold
for the default-constructed buffer, every `push_back`, `push_front`,
`pop_back` and `pop_front` started inside the bounds completes inside them,
and so every sequence of calls on the default-constructed buffer completes in
a state inside the bounds. -/
theorem bounds_hold_in_reachable_states [Zero T] (hN : 1 ≤ N) :
    in_bounds (ctor : circularbuffer T N) ∧
    (∀ (cb : circularbuffer T N) (t : T), in_bounds cb →
      ∃ cb1, push_back cb t = some cb1 ∧ in_bounds cb1) ∧
    (∀ (cb : circularbuffer T N) (t : T), in_bounds cb →
      ∃ cb1, push_front cb t = some cb1 ∧ in_bounds cb1) ∧
    (∀ cb : circularbuffer T N, in_bounds cb → in_bounds (pop_back cb)) ∧
    (∀ cb : circularbuffer T N, in_bounds cb → in_bounds (pop_front cb)) ∧
    (∀ cs : List (Call T), ∃ cb : circularbuffer T N,
      run ctor cs = some cb ∧ in_bounds cb) := by
  have h0 : in_bounds (ctor : circularbuffer T N) :=
    ⟨Nat.zero_le _, Nat.zero_le _⟩
  exact ⟨h0, fun cb t h => in_bounds_push_back hN cb t h,
    fun cb t h => in_bounds_push_front hN cb t h,
    fun cb h => in_bounds_pop_back cb h,
    fun cb h => in_bounds_pop_front hN cb h,
    fun cs => in_bounds_run hN cs ctor h0⟩

/-- Witness for C13: capacity 2 with natural-number elements. -/
theorem bounds_hold_in_reachable_states_witness :
    1 ≤ 2 ∧
    (in_bounds (ctor : circularbuffer Nat 2) ∧
    (∀ (cb : circularbuffer Nat 2) (t : Nat), in_bounds cb →
      ∃ cb1, push_back cb t = some cb1 ∧ in_bounds cb1) ∧
    (∀ (cb : circularbuffer Nat 2) (t : Nat), in_bounds cb →
      ∃ cb1, push_front cb t = some cb1 ∧ in_bounds cb1) ∧
    (∀ cb : circularbuffer Nat 2, in_bounds cb → in_bounds (pop_back cb)) ∧
    (∀ cb : circularbuffer Nat 2, in_bounds cb → in_bounds (pop_front cb)) ∧
    (∀ cs : List (Call Nat), ∃ cb : circularbuffer Nat 2,
      run ctor cs = some cb ∧ in_bounds cb)) :=
  ⟨by decide, bounds_hold_in_reachable_states (by decide)⟩

/-- C14: for `N ≥ 1` and a state with `size_ ≤ N` and `begin < N`, each of
`push_back`, `push_front`, `pop_back` and `pop_front` completes: no modulus by
zero and no array access outside `0 .. N-1` occurs (either would make the
call undefined).  In the branch `size_ < N` of `push_back` the index taken by
`operator[]` after the increment is `(begin + size_) % (size_ + 1)`, its
modulus `size_ + 1` is at least 1, the index is below `N`, and the call is the
assignment to that slot. -/
theorem mutators_total (cb : circularbuffer T N) (t : T) (hN : 1 ≤ N)
    (hs : cb.size_ ≤ N) (hb : cb.begin < N) :
    (∀ c : Call T, ∃ cb1, step cb c = some cb1) ∧
    (cb.size_ < N →
      index_of ({ cb with size_ := cb.size_ + 1 } : circularbuffer T N) cb.size_
          = some ((cb.begin + cb.size_) % (cb.size_ + 1)) ∧
        1 ≤ cb.size_ + 1 ∧ (cb.begin + cb.size_) % (cb.size_ + 1) < N ∧
        ∃ cb1, push_back cb t = some cb1 ∧
          store ({ cb with size_ := cb.size_ + 1 } : circularbuffer T N)
            ((cb.begin + cb.size_) % (cb.size_ + 1)) t = some cb1) := by
  have hin : in_bounds cb := ⟨hs, by omega⟩
  refine ⟨?_, ?_⟩
  · intro c
    obtain ⟨cb1, hstep, _⟩ := in_bounds_step hN cb c hin
    exact ⟨cb1, hstep⟩
  · intro hlt
    refine ⟨?_, Nat.succ_pos _, push_back_slot_lt cb hlt, _, push_back_of_lt cb t hlt, ?_⟩
    · simp only [index_of]
      rw [if_neg (Nat.succ_ne_zero _)]
    · exact store_of_lt _ _ (push_back_slot_lt cb hlt)

/-- Witness for C14: capacity 3, one live element, `begin` at slot 2. -/
theorem mutators_total_witness :
    (1 ≤ 3 ∧ (⟨![4, 5, 6], 2, 1⟩ : circularbuffer Nat 3).size_ ≤ 3 ∧
      (⟨![4, 5, 6], 2, 1⟩ : circularbuffer Nat 3).begin < 3) ∧
    ((∀ c : Call Nat, ∃ cb1, step (⟨![4, 5, 6], 2, 1⟩ : circularbuffer Nat 3) c = some cb1) ∧
    (1 < 3 →
      index_of (⟨![4, 5, 6], 2, 1 + 1⟩ : circularbuffer Nat 3) 1
          = some ((2 + 1) % (1 + 1)) ∧
        1 ≤ 1 + 1 ∧ (2 + 1) % (1 + 1) < 3 ∧
        ∃ cb1, push_back (⟨![4, 5, 6], 2, 1⟩ : circularbuffer Nat 3) 9 = some cb1 ∧
          store (⟨![4, 5, 6], 2, 1 + 1⟩ : circularbuffer Nat 3) ((2 + 1) % (1 + 1)) 9
            = some cb1)) :=
  ⟨by decide, mutators_total ⟨![4, 5, 6], 2, 1⟩ 9 (by decide) (by decide) (by decide)⟩

/-! ## Single pushes from a given state -/

/-- C15: for a full buffer (`size_ == N`, `begin < N`, `N ≥ 1`),
`push_back(v)` completes, the slot at the old `begin` now holds `v` and every
other slot is unchanged, `begin` becomes `(begin + 1) % N` and `size_` stays
`N`; so `operator[](N-1)` returns `v` and for `i < N-1` `operator[](i)`
returns what `operator[](i+1)` returned before the call. -/
theorem push_back_full_shifts (cb : circularbuffer T N) (v : T) (hN : 1 ≤ N)
    (hfull : cb.size_ = N) (hb : cb.begin < N) :
    ∃ cb1, push_back cb v = some cb1 ∧ load cb1 cb.begin = some v ∧
      (∀ q, q ≠ cb.begin → load cb1 q = load cb q) ∧
      cb1.begin = (cb.begin + 1) % N ∧ cb1.size_ = N ∧
      subscript cb1 (N - 1) = some v ∧
      ∀ i, i < N - 1 → ∃ y, subscript cb (i + 1) = some y ∧ subscript cb1 i = some y := by
  have hpush := push_back_of_full cb v (by omega) hb
  have hbeg : (if cb.begin + 1 = N then 0 else cb.begin + 1) = (cb.begin + 1) % N := by
    rw [mod_wrap _ _ (by omega)]
    split <;> split <;> omega
  rw [hbeg, hfull] at hpush
  refine ⟨_, hpush, ?_, ?_, rfl, rfl, ?_, ?_⟩
  · rw [load_update, if_pos rfl]
  · intro q hq
    rw [load_update, if_neg hq]
  · have hidx : ((cb.begin + 1) % N + (N - 1)) % N = cb.begin := by
      rw [Nat.mod_add_mod, show cb.begin + 1 + (N - 1) = cb.begin + N by omega,
        Nat.add_mod_right, Nat.mod_eq_of_lt hb]
    simp only [subscript, index_of]
    rw [if_neg (by omega), hidx, Option.some_bind, load_update, if_pos rfl]
  · intro i hi
    have hq : ((cb.begin + 1) % N + i) % N = (cb.begin + (i + 1)) % N := by
      rw [Nat.mod_add_mod]
      congr 1
      omega
    have hlt : (cb.begin + (i + 1)) % N < N := Nat.mod_lt _ hN
    have hne : (cb.begin + (i + 1)) % N ≠ cb.begin := by
      rw [mod_wrap _ _ (by omega)]
      split <;> omega
    refine ⟨cb.buffer ⟨(cb.begin + (i + 1)) % N, hlt⟩, ?_, ?_⟩
    · simp only [subscript, index_of]
      rw [if_neg (by omega), hfull, Option.some_bind]
      exact load_of_lt cb hlt
    · simp only [subscript, index_of]
      rw [if_neg (by omega), hq, Option.some_bind, load_update, if_neg hne]
      exact load_of_lt cb hlt

/-- Witness for C15: a full buffer of capacity 3 holding `4, 5, 6` with `begin`
at slot 2. -/
theorem push_back_full_shifts_witness :
    (1 ≤ 3 ∧ (⟨![4, 5, 6], 2, 3⟩ : circularbuffer Nat 3).size_ = 3 ∧
      (⟨![4, 5, 6], 2, 3⟩ : circularbuffer Nat 3).begin < 3) ∧
    ∃ cb1, push_back (⟨![4, 5, 6], 2, 3⟩ : circularbuffer Nat 3) 9 = some cb1 ∧
      load cb1 2 = some 9 ∧
      (∀ q, q ≠ 2 → load cb1 q = load (⟨![4, 5, 6], 2, 3⟩ : circularbuffer Nat 3) q) ∧
      cb1.begin = (2 + 1) % 3 ∧ cb1.size_ = 3 ∧
      subscript cb1 (3 - 1) = some 9 ∧
      ∀ i, i < 3 - 1 →
        ∃ y, subscript (⟨![4, 5, 6], 2, 3⟩ : circularbuffer Nat 3) (i + 1) = some y ∧
          subscript cb1 i = some y :=
  ⟨by decide, push_back_full_shifts ⟨![4, 5, 6], 2, 3⟩ 9 (by decide) rfl (by decide)⟩

/-- C16 (code evaluated at a failing input): with capacity 2, after
`push_back(1), push_back(2), pop_front()` the buffer is not full (`size()` is
1) and `operator[](0)` returns `1`; after a further `push_back(3)` `size()` is
2 and `operator[](1)` returns `3`, but `operator[](0)` now returns `2`. -/
theorem push_back_not_full_changes_subscript :
    (run (ctor : circularbuffer Int 2)
        [.push_back 1, .push_back 2, .pop_front]).map size = some 1 ∧
    ((run (ctor : circularbuffer Int 2)
        [.push_back 1, .push_back 2, .pop_front]).bind fun cb => subscript cb 0) = some 1 ∧
    (run (ctor : circularbuffer Int 2)
        [.push_back 1, .push_back 2, .pop_front, .push_back 3]).map size = some 2 ∧
    ((run (ctor : circularbuffer Int 2)
        [.push_back 1, .push_back 2, .pop_front, .push_back 3]).bind
          fun cb => subscript cb 1) = some 3 ∧
    ((run (ctor : circularbuffer Int 2)
        [.push_back 1, .push_back 2, .pop_front, .push_back 3]).bind
          fun cb => subscript cb 0) = some 2 := by
  decide

/-- C17: for `N ≥ 1` and a state with `size_ ≤ N` and `begin < N` (empty,
partly filled or full), `push_back(x)` completes and `back()` then returns
`x`. -/
theorem push_back_then_back (cb : circularbuffer T N) (x : T) (hN : 1 ≤ N)
    (hs : cb.size_ ≤ N) (hb : cb.begin < N) :
    ∃ cb1, push_back cb x = some cb1 ∧ back cb1 = some x := by
  by_cases hlt : cb.size_ < N
  · refine ⟨_, push_back_of_lt cb x hlt, ?_⟩
    simp only [back, subscript, index_of]
    rw [if_neg (Nat.succ_ne_zero _), Nat.add_sub_cancel, Option.some_bind, load_update,
      if_pos rfl]
  · have hfull : cb.size_ = N := by omega
    have hpush := push_back_of_full cb x hlt hb
    rw [hfull] at hpush
    refine ⟨_, hpush, ?_⟩
    have hidx : ((if cb.begin + 1 = N then 0 else cb.begin + 1) + (N - 1)) % N
        = cb.begin := by
      split
      · rw [Nat.zero_add, Nat.mod_eq_of_lt (by omega)]
        omega
      · rw [show cb.begin + 1 + (N - 1) = cb.begin + N by omega, Nat.add_mod_right,
          Nat.mod_eq_of_lt hb]
    simp only [back, subscript, index_of]
    rw [if_neg (by omega), hidx, Option.some_bind, load_update, if_pos rfl]

/-- Witness for C17: capacity 3, one live element, `begin` at slot 2. -/
theorem push_back_then_back_witness :
    (1 ≤ 3 ∧ (⟨![4, 5, 6], 2, 1⟩ : circularbuffer Nat 3).size_ ≤ 3 ∧
      (⟨![4, 5, 6], 2, 1⟩ : circularbuffer Nat 3).begin < 3) ∧
    ∃ cb1, push_back (⟨![4, 5, 6], 2, 1⟩ : circularbuffer Nat 3) 9 = some cb1 ∧
      back cb1 = some 9 :=
  ⟨by decide, push_back_then_back ⟨![4, 5, 6], 2, 1⟩ 9 (by decide) (by decide) (by decide)⟩

/-- C18: for `N ≥ 1` and a state with `size_ ≤ N` and `begin < N`,
`push_front(x)` completes, `front()` then returns `x`, `begin` is
`(old begin + N - 1) % N`, `size_` is `min (old size_ + 1) N`, and every slot
other than the new `begin` is unchanged. -/
theorem push_front_effect (cb : circularbuffer T N) (x : T) (hN : 1 ≤ N)
    (hs : cb.size_ ≤ N) (hb : cb.begin < N) :
    ∃ cb1, push_front cb x = some cb1 ∧ front cb1 = some x ∧
      cb1.begin = (cb.begin + N - 1) % N ∧ cb1.size_ = min (cb.size_ + 1) N ∧
      ∀ q, q ≠ cb1.begin → load cb1 q = load cb q := by
  obtain ⟨b1, h1, hb1, hpush⟩ := push_front_eq cb x hN hb
  refine ⟨_, hpush, ?_, ?_, ?_, ?_⟩
  · simp only [front]
    rw [load_update, if_pos rfl]
  · show b1 = (cb.begin + N - 1) % N
    rw [hb1, mod_wrap _ _ (by omega)]
    split <;> split <;> omega
  · show (if cb.size_ < N then cb.size_ + 1 else cb.size_) = min (cb.size_ + 1) N
    split <;> omega
  · intro q hq
    rw [load_update, if_neg hq]

/-- Witness for C18: capacity 3, two live elements, `begin` at slot 0. -/
theorem push_front_effect_witness :
    (1 ≤ 3 ∧ (⟨![4, 5, 6], 0, 2⟩ : circularbuffer Nat 3).size_ ≤ 3 ∧
      (⟨![4, 5, 6], 0, 2⟩ : circularbuffer Nat 3).begin < 3) ∧
    ∃ cb1, push_front (⟨![4, 5, 6], 0, 2⟩ : circularbuffer Nat 3) 9 = some cb1 ∧
      front cb1 = some 9 ∧ cb1.begin = (0 + 3 - 1) % 3 ∧ cb1.size_ = min (2 + 1) 3 ∧
      ∀ q, q ≠ cb1.begin →
        load cb1 q = load (⟨![4, 5, 6], 0, 2⟩ : circularbuffer Nat 3) q :=
  ⟨by decide, push_front_effect ⟨![4, 5, 6], 0, 2⟩ 9 (by decide) (by decide) (by decide)⟩

/-- C19: for `N ≥ 1` and a state with `0 < size_ ≤ N` and `begin == 0` or
`size_ == N` (in particular for every such state with `begin < N`), for every
`i < size_` the index `(begin + i) % size_` that `operator[](i)` takes equals
`(begin + i) % N`, and `operator[](i)` returns the element stored in that
slot. -/
theorem subscript_wraps_mod_N_when_aligned (cb : circularbuffer T N) (i : Nat)
    (hN : 1 ≤ N) (hpos : 0 < cb.size_) (hs : cb.size_ ≤ N)
    (hcase : cb.begin = 0 ∨ cb.size_ = N) (hi : i < cb.size_) :
    index_of cb i = some ((cb.begin + i) % N) ∧
      ∃ y, load cb ((cb.begin + i) % N) = some y ∧ subscript cb i = some y := by
  have hidx : (cb.begin + i) % cb.size_ = (cb.begin + i) % N := by
    rcases hcase with h0 | hfull
    · rw [h0, Nat.zero_add, Nat.mod_eq_of_lt hi, Nat.mod_eq_of_lt (by omega)]
    · rw [hfull]
  have hio : index_of cb i = some ((cb.begin + i) % N) := by
    simp only [index_of]
    rw [if_neg (by omega), hidx]
  have hlt : (cb.begin + i) % N < N := Nat.mod_lt _ hN
  refine ⟨hio, cb.buffer ⟨(cb.begin + i) % N, hlt⟩, load_of_lt cb hlt, ?_⟩
  simp only [subscript]
  rw [hio, Option.some_bind]
  exact load_of_lt cb hlt

/-- Witness for C19: a full buffer of capacity 3 with `begin` at slot 2, read
at logical index 2. -/
theorem subscript_wraps_mod_N_when_aligned_witness :
    (1 ≤ 3 ∧ 0 < (⟨![4, 5, 6], 2, 3⟩ : circularbuffer Nat 3).size_ ∧
      (⟨![4, 5, 6], 2, 3⟩ : circularbuffer Nat 3).size_ ≤ 3 ∧
      ((⟨![4, 5, 6], 2, 3⟩ : circularbuffer Nat 3).begin = 0 ∨
        (⟨![4, 5, 6], 2, 3⟩ : circularbuffer Nat 3).size_ = 3) ∧
      2 < (⟨![4, 5, 6], 2, 3⟩ : circularbuffer Nat 3).size_) ∧
    (index_of (⟨![4, 5, 6], 2, 3⟩ : circularbuffer Nat 3) 2 = some ((2 + 2) % 3) ∧
      ∃ y, load (⟨![4, 5, 6], 2, 3⟩ : circularbuffer Nat 3) ((2 + 2) % 3) = some y ∧
        subscript (⟨![4, 5, 6], 2, 3⟩ : circularbuffer Nat 3) 2 = some y) :=
  ⟨by decide, subscript_wraps_mod_N_when_aligned ⟨![4, 5, 6], 2, 3⟩ 2 (by decide) (by decide)
    (by decide) (by decide) (by decide)⟩

end CircularBuffer
